import Mathlib

/- Verification of the timezone-arithmetic, day-grid, consensus, search-ranking,
   selection and state-management components of the World Time Conference tool
   (src/scripts/app.js), shallowly embedded in Lean 4. Machine integers of the
   source are modelled as unbounded integers (all quantities involved stay far
   below 2^53, where host number arithmetic is exact), and the real-valued
   intensity arithmetic of the consensus overlay is modelled over the rationals. -/

namespace WorldTime

/-- Civil calendar/clock fields of an instant as observed in some timezone,
mirroring the record built by partsFromTs in app.js. -/
structure CivilFields where
  year : ℤ
  month : ℤ
  day : ℤ
  hour : ℤ
  minute : ℤ
  second : ℤ
  weekday : ℤ
deriving DecidableEq, Repr

/-- A civil date as stored on a candidate block. -/
structure DateObj where
  year : ℤ
  month : ℤ
  day : ℤ
deriving DecidableEq, Repr

/-- Days since the Unix epoch of a proleptic-Gregorian civil date: the
arithmetic underlying the host Date.UTC (civil-to-days conversion). The
formula is linear in the day argument, exactly as MakeDay of the host, so
out-of-range day values roll over as in the source. -/
def daysFromCivil (y m d : ℤ) : ℤ :=
  let y2 := if m ≤ 2 then y - 1 else y
  let era := y2.ediv 400
  let yoe := y2 - era * 400
  let mp := if 2 < m then m - 3 else m + 9
  let doy := (153 * mp + 2).ediv 5 + d - 1
  let doe := yoe * 365 + yoe.ediv 4 - yoe.ediv 100 + doy
  era * 146097 + doe - 719468

/-- Milliseconds since the Unix epoch of UTC civil fields: the model of the
host Date.UTC used by the source for weekday and offset computations. -/
def dateUTC (y m d h mi s : ℤ) : ℤ :=
  daysFromCivil y m d * 86400000 + h * 3600000 + mi * 60000 + s * 1000

/-- Civil UTC fields of an instant in milliseconds: the model of what the
host 24-hour formatter reports for timezone UTC (days-to-civil conversion). -/
def utcFields (ts : ℤ) : CivilFields :=
  let z0 := ts.ediv 86400000
  let rem := ts.emod 86400000
  let hour := rem.ediv 3600000
  let minute := (rem.emod 3600000).ediv 60000
  let second := (rem.emod 60000).ediv 1000
  let z := z0 + 719468
  let era := z.ediv 146097
  let doe := z - era * 146097
  let yoe := (doe - doe.ediv 1460 + doe.ediv 36524 - doe.ediv 146096).ediv 365
  let y := yoe + era * 400
  let doy := doe - (365 * yoe + yoe.ediv 4 - yoe.ediv 100)
  let mp := (5 * doy + 2).ediv 153
  let day := doy - (153 * mp + 2).ediv 5 + 1
  let month := if mp < 10 then mp + 3 else mp - 9
  let year := if month ≤ 2 then y + 1 else y
  { year := year, month := month, day := day, hour := hour, minute := minute,
    second := second, weekday := (z0 + 4).emod 7 }

/-- Modelled from the spec: the host locale-formatting capability (the only
part of the pipeline not in src/) is abstracted as a timezone given by its
UTC-offset function in whole minutes - all current host-supported IANA zones
have whole-minute offsets - so that formatting instant ts in the zone shows
the UTC civil fields of ts + 60000 * off ts. -/
structure Tz where
  off : ℤ → ℤ

/-- partsFromTs of app.js: format the instant in the zone, parse the fields,
and recompute the weekday from the Date.UTC proxy instant of those fields. -/
def partsFromTs (ts : ℤ) (tz : Tz) : CivilFields :=
  let m := utcFields (ts + tz.off ts * 60000)
  let asUTC := dateUTC m.year m.month m.day m.hour m.minute m.second
  { m with weekday := (asUTC.ediv 86400000 + 4).emod 7 }

/-- tzOffsetMinutes of app.js: wall clock minus UTC in minutes, computed from
the Date.UTC proxy of the formatted fields. The source divides by 60000 using
exact host float division; every use site in the source is minute-aligned, so
the integer division below is exact there. -/
def tzOffsetMinutes (ts : ℤ) (tz : Tz) : ℤ :=
  let p := partsFromTs ts tz
  (dateUTC p.year p.month p.day p.hour p.minute p.second - ts).ediv 60000

/-- Match test of the zonedMidnightUtcMs scan loop: civil fields in the zone
are exactly the target date at hour 0, minute 0. -/
def midnightMatch (d : DateObj) (tz : Tz) (ts : ℤ) : Bool :=
  let p := partsFromTs ts tz
  p.year == d.year && p.month == d.month && p.day == d.day &&
    p.hour == 0 && p.minute == 0

/-- Fuel-indexed minute scan of zonedMidnightUtcMs: try ts, ts + 60000, and
so on, returning the first match. -/
def scanAux (d : DateObj) (tz : Tz) : ℕ → ℤ → Option ℤ
  | 0, _ => none
  | n + 1, ts => if midnightMatch d tz ts then some ts else scanAux d tz n (ts + 60000)

/-- First instant scanned by zonedMidnightUtcMs: 36 hours before UTC noon of
the target date, that is 24 hours before the naive UTC midnight guess. -/
def scanStart (d : DateObj) : ℤ :=
  dateUTC d.year d.month d.day 12 0 0 - 129600000

/-- Number of candidate instants of the scan: one per minute over 72 hours,
both window ends included. -/
def scanCount : ℕ := 4321

/-- zonedMidnightUtcMs of app.js: minute scan over the window, first exact
match wins; on exhaustion fall back to offset subtraction at the naive
UTC-midnight guess. -/
def zonedMidnightUtcMs (d : DateObj) (tz : Tz) : ℤ :=
  match scanAux d tz scanCount (scanStart d) with
  | some ts => ts
  | none =>
      let guess := dateUTC d.year d.month d.day 0 0 0
      guess - tzOffsetMinutes guess tz * 60000

/-- While loop of makeWrappedRect shifting a negative left offset up by whole
days until it is nonnegative. Offsets of 1440 or more are left untouched. -/
def normNeg (l : ℤ) : ℤ :=
  if l < 0 then normNeg (l + 1440) else l
termination_by (-l).toNat
decreasing_by simp_wf; omega

/-- makeWrappedRect of app.js: wrap a minute interval of the abstract day onto
the canonical day, splitting it at the 1440 boundary when it crosses. -/
def makeWrappedRect (leftMin widthMin : ℤ) : List (ℤ × ℤ) :=
  let l := normNeg leftMin
  if l + widthMin ≤ 1440 then [(l, widthMin)]
  else [(l, 1440 - l), (0, widthMin - (1440 - l))]

/-- comfortWeight of app.js: fixed desirability step function of a local hour. -/
def comfortWeight (hour : ℤ) : ℕ :=
  if 9 ≤ hour ∧ hour < 18 then 3
  else if (7 ≤ hour ∧ hour < 9) ∨ (18 ≤ hour ∧ hour < 21) then 2
  else if hour = 6 ∨ (21 ≤ hour ∧ hour < 23) then 1
  else 0

/-- Per the claim text, the scan window start of localMidnightInstant would be
36 hours before the naive UTC-midnight guess; the source centers the window at
UTC noon instead. Kept for comparison against the source window. -/
def claimScanStart (d : DateObj) : ℤ :=
  dateUTC d.year d.month d.day 0 0 0 - 129600000

/-- localMidnightInstant as described by the claim: same minute scan and same
fallback as the source, but over the window centered at the naive UTC-midnight
guess. -/
def claimMidnight (d : DateObj) (tz : Tz) : ℤ :=
  match scanAux d tz scanCount (claimScanStart d) with
  | some ts => ts
  | none =>
      let guess := dateUTC d.year d.month d.day 0 0 0
      guess - tzOffsetMinutes guess tz * 60000

/-- localMidnightInstant as described by the amended claim: first candidate of
the source window (UTC noon of the date, plus or minus 36 hours, at 1-minute
resolution) whose fields match; offset-subtraction fallback on exhaustion. -/
def specMidnight (d : DateObj) (tz : Tz) : ℤ :=
  match ((List.range scanCount).map (fun k : ℕ => scanStart d + 60000 * (k : ℤ))).find?
      (midnightMatch d tz) with
  | some ts => ts
  | none =>
      let guess := dateUTC d.year d.month d.day 0 0 0
      guess - tzOffsetMinutes guess tz * 60000

/-- Model of America/Sao_Paulo around its 2018 spring-forward: clocks jump
from UTC-03:00 to UTC-02:00 at 2018-11-04 03:00:00 UTC, so the local day
2018-11-04 starts at 01:00 and local midnight does not exist. The numeral is
dateUTC 2018 11 4 3 0 0. -/
def tzSaoPaulo : Tz :=
  ⟨fun ts => if ts < 1541300400000 then -180 else -120⟩

/-- Half-hour-offset zone (UTC+05:30, as Asia/Kolkata, no DST). -/
def tzKolkata : Tz := ⟨fun _ => 330⟩

/-- Artificial zone exercising the window placement of the scan: offset
UTC+30:00 before 2020-01-04 23:00:00 UTC (numeral 1578092400000) and UTC+00:00
from then on, so local midnight of 2020-01-05 occurs both 30 hours before and
exactly at the naive UTC-midnight guess. -/
def tzWindow : Tz :=
  ⟨fun ts => if ts < 1578092400000 then 1800 else 0⟩

/-- Zone at UTC+00:00, used by concrete consensus evaluations. -/
def tzUTC : Tz := ⟨fun _ => 0⟩

/-- A segment of the consensus overlay: quantized intensity q over the
half-open slot interval from start to stop. -/
structure CSeg where
  q : ℚ
  start : ℕ
  stop : ℕ
deriving DecidableEq, Repr

/-- Instant probed for slot s of the consensus overlay: the source computes
anchorUtc + (s + 0.5) * gran * 60000, an exact integer. -/
def slotTs (anchor gran : ℤ) (s : ℕ) : ℤ :=
  anchor + (2 * (s : ℤ) + 1) * gran * 30000

/-- Per-slot comfort score of renderConsensus: sum of comfortWeight of the
local hour of every tracked city at the probed instant. -/
def slotScore (cities : List Tz) (anchor gran : ℤ) (s : ℕ) : ℕ :=
  (cities.map (fun c => comfortWeight ((partsFromTs (slotTs anchor gran s) c).hour))).sum

/-- Quantization of renderConsensus: round the intensity to one decimal place
(host Math.round is floor of x + 1/2 for the nonnegative values used here). -/
def quantize (a : ℚ) : ℚ := ((⌊a * 10 + 1 / 2⌋ : ℤ) : ℚ) / 10

/-- Quantized intensity of a slot as computed by renderConsensus: zero when
the score is zero, otherwise min(0.25, 0.05 + 0.2 * score / maxPerSlot) with
maxPerSlot = 3 * max(1, number of cities), rounded to one decimal. -/
def codeQf (cities : List Tz) (anchor gran : ℤ) (s : ℕ) : ℚ :=
  let score := slotScore cities anchor gran s
  let maxPerSlot : ℚ := 3 * (max 1 cities.length : ℕ)
  let alpha : ℚ :=
    if score ≤ 0 then 0 else min (1 / 4) (1 / 20 + (1 / 5) * ((score : ℚ) / maxPerSlot))
  quantize alpha

/-- Quantized intensity of a slot as the claim words it: no zero-score
special case, and maxPossibleScore = 3 * cityCount. -/
def claimQf (cities : List Tz) (anchor gran : ℤ) (s : ℕ) : ℚ :=
  let score := slotScore cities anchor gran s
  quantize (min (1 / 4) (1 / 20 + (1 / 5) * ((score : ℚ) / (3 * (cities.length : ℚ)))))

/-- Quantized intensity per the amended claim: zero when the score is zero,
otherwise the claim formula with maxPossibleScore = 3 * cityCount. -/
def specQf (cities : List Tz) (anchor gran : ℤ) (s : ℕ) : ℚ :=
  let score := slotScore cities anchor gran s
  if score = 0 then 0
  else quantize (min (1 / 4) (1 / 20 + (1 / 5) * ((score : ℚ) / (3 * (cities.length : ℚ)))))

/-- One iteration of the renderConsensus run-length-encoding loop: extend the
current run while the quantized intensity is unchanged, otherwise push it and
open a new run at the current slot. -/
def consensusStep (qf : ℕ → ℚ) (acc : List CSeg × Option CSeg) (s : ℕ) :
    List CSeg × Option CSeg :=
  match acc.2 with
  | none => (acc.1, some ⟨qf s, s, s + 1⟩)
  | some c =>
      if c.q = qf s then (acc.1, some ⟨c.q, c.start, s + 1⟩)
      else (acc.1 ++ [c], some ⟨qf s, s, s + 1⟩)

/-- Segment list of the renderConsensus loop over a given slot list: fold the
loop body, then push the still-open run. -/
def consensusSegsList (qf : ℕ → ℚ) (l : List ℕ) : List CSeg :=
  let p := l.foldl (consensusStep qf) ([], none)
  p.1 ++ p.2.toList

/-- Visibility filter of renderConsensus: drop segments of nonpositive
intensity and segments narrower than two slot widths. -/
def consensusFilter (segs : List CSeg) : List CSeg :=
  segs.filter (fun g => decide (0 < g.q) && decide (2 ≤ g.stop - g.start))

/-- Rendered consensus segments of renderConsensus: totalSlots =
24 * slotsPerHour slots, run-length-encoded and filtered. -/
def renderConsensus (cities : List Tz) (anchor gran : ℤ) (sph : ℕ) : List CSeg :=
  consensusFilter (consensusSegsList (codeQf cities anchor gran) (List.range (24 * sph)))

/-- Run-length encoding as the claim words it: extend the current segment
over adjacent slots sharing the same quantized intensity, else emit it and
start a new one. -/
def rleRun (qf : ℕ → ℚ) (c : CSeg) : List ℕ → List CSeg
  | [] => [c]
  | s :: rest =>
      if c.q = qf s then rleRun qf ⟨c.q, c.start, s + 1⟩ rest
      else c :: rleRun qf ⟨qf s, s, s + 1⟩ rest

/-- Claim-side run-length encoder over a slot list. -/
def specRLE (qf : ℕ → ℚ) : List ℕ → List CSeg
  | [] => []
  | s :: rest => rleRun qf ⟨qf s, s, s + 1⟩ rest

/-- Consensus pipeline exactly as the claim states it (used to test the claim
as written). -/
def claimConsensus (cities : List Tz) (anchor gran : ℤ) (sph : ℕ) : List CSeg :=
  consensusFilter (specRLE (claimQf cities anchor gran) (List.range (24 * sph)))

/-- Consensus pipeline per the amended claim. -/
def specConsensus (cities : List Tz) (anchor gran : ℤ) (sph : ℕ) : List CSeg :=
  consensusFilter (specRLE (specQf cities anchor gran) (List.range (24 * sph)))

/-- Tokens and indexed text of the search ranker are modelled as character
lists (the normalization pipeline itself is host Unicode machinery outside
the scored comparison). -/
abbrev Tok := List Char

/-- The ASCII space used by the whole-word boundary check of scoreItem. -/
def spaceChar : Char := ' '

/-- Per-entry search index of buildIndexForItem: normalized blob and token
set for the base and kana normalizations, plus the curated flag of the entry. -/
structure SIndex where
  base : Tok
  kana : Tok
  baseTokens : List Tok
  kanaTokens : List Tok
  isCurated : Bool

/-- Reference edit distance: unit-cost insertion, deletion and substitution,
by the standard Levenshtein recurrence. The inner helper recurses over the
second list with the distances from the shorter first list supplied as f. -/
def editDistAux (x : Char) (f : List Char → ℕ) (xlen1 : ℕ) : List Char → ℕ
  | [] => xlen1
  | y :: ys =>
      min (min (f (y :: ys) + 1) (editDistAux x f xlen1 ys + 1))
        (f ys + (if x = y then 0 else 1))

/-- Reference edit distance between two character lists. -/
def editDist : List Char → List Char → ℕ
  | [], bs => bs.length
  | x :: xs, bs => editDistAux x (editDist xs) (xs.length + 1) bs

/-- Inner loop of the levenshtein function of app.js: one row update of the
single-array dynamic program. left is the fresh value at the previous column,
the list argument holds the previous-row values from the diagonal onwards. -/
def rowStep (x : Char) : List Char → ℕ → List ℕ → List ℕ
  | [], _, _ => []
  | _ :: _, _, [] => []
  | c :: bs, left, d :: rest =>
      let v := min (min (rest.headD 0 + 1) (left + 1)) (d + (if x = c then 0 else 1))
      v :: rowStep x bs v rest

/-- Outer loop of the levenshtein function of app.js: fold the rows over the
characters of the first string, prefixing each new row with its row index. -/
def levLoop : List Char → List Char → ℕ → List ℕ → List ℕ
  | [], _, _, dp => dp
  | x :: xs, b, i, dp => levLoop xs b (i + 1) (i :: rowStep x b i dp)

/-- levenshtein of app.js: early exits for equal and empty inputs, then the
row dynamic program; the answer is the last cell of the final row. -/
def levenshtein (a b : List Char) : ℕ :=
  if a = b then 0
  else if a.length = 0 then b.length
  else if b.length = 0 then a.length
  else (levLoop a b 1 (List.range (b.length + 1))).getLastD 0

/-- Proof-side row abstraction for the dynamic program: the row of reference
edit distances from the reversed processed prefix p to the reversed prefixes
of b extending q. -/
def rowFrom (p : List Char) : List Char → List Char → List ℕ
  | q, [] => [editDist p.reverse q.reverse]
  | q, c :: cs => editDist p.reverse q.reverse :: rowFrom p (q ++ [c]) cs

/-- Base-normalization contribution of one query token in scoreItem:
prefix, token-set, whole-word substring else bare substring. -/
def baseContrib (idx : SIndex) (t : Tok) : ℕ :=
  (if t.isPrefixOf idx.base then 15 else 0) +
  (if t ∈ idx.baseTokens then 12 else 0) +
  (if (spaceChar :: t) <:+: idx.base then 10
   else if t <:+: idx.base then 6 else 0)

/-- Kana-normalization contribution of one query token in scoreItem. -/
def kanaContrib (idx : SIndex) (kt : Tok) : ℕ :=
  (if kt.isPrefixOf idx.kana then 14 else 0) +
  (if kt ∈ idx.kanaTokens then 11 else 0) +
  (if (spaceChar :: kt) <:+: idx.kana then 9
   else if kt <:+: idx.kana then 5 else 0)

/-- Fuzzy candidates of scoreItem: indexed base tokens of length 3 to 12. -/
def fuzzyCandidates (idx : SIndex) : List Tok :=
  idx.baseTokens.filter (fun w => decide (3 ≤ w.length) && decide (w.length ≤ 12))

/-- Best-distance fold of the scoreItem fuzzy loop, starting from Infinity. -/
def bestDist (t : Tok) (cands : List Tok) : WithTop ℕ :=
  cands.foldl
    (fun best w =>
      if ((levenshtein t w : ℕ) : WithTop ℕ) < best then ((levenshtein t w : ℕ) : WithTop ℕ)
      else best) ⊤

/-- Fuzzy contribution of one query token in scoreItem. -/
def fuzzyContrib (idx : SIndex) (t : Tok) : ℕ :=
  let best := bestDist t (fuzzyCandidates idx)
  if best ≤ 1 then 6 else if best = 2 then 3 else 0

/-- scoreItem of app.js: additive base and kana token matches, fuzzy fallback
when the accumulated match score is below 10, flat curated boost at the end. -/
def scoreItem (idx : SIndex) (tokens kanaToks : List Tok) : ℕ :=
  let s1 := tokens.foldl (fun acc t => acc + baseContrib idx t) 0
  let s2 := kanaToks.foldl (fun acc kt => acc + (if kt = [] then 0 else kanaContrib idx kt)) s1
  let s3 := if s2 < 10 then s2 + tokens.foldl (fun acc t => acc + fuzzyContrib idx t) 0 else s2
  if idx.isCurated then s3 + 3 else s3

/-- Fuzzy contribution as the claim words it: the minimum edit distance from
the query token to any indexed token of length 3 to 12; at most 1 adds 6,
exactly 2 adds 3. -/
def claimFuzzy (idx : SIndex) (t : Tok) : ℕ :=
  let dmin := ((fuzzyCandidates idx).map (fun w => editDist t w)).minimum
  if dmin ≤ 1 then 6 else if dmin = 2 then 3 else 0

/-- scoreItem as the claim words it: sums of the per-token contributions over
both normalization variants, a flat curated bonus, and the fuzzy fallback when
the accumulated match score (the two token-contribution sums) is below 10. -/
def claimScore (idx : SIndex) (tokens kanaToks : List Tok) : ℕ :=
  (tokens.map (baseContrib idx)).sum + (kanaToks.map (kanaContrib idx)).sum +
    (if idx.isCurated then 3 else 0) +
    (if (tokens.map (baseContrib idx)).sum + (kanaToks.map (kanaContrib idx)).sum < 10
     then (tokens.map (claimFuzzy idx)).sum else 0)

/-- Stored selection of a candidate block: start and stop slot indices (the
source fields are named start and end). -/
structure Sel where
  start : ℤ
  stop : ℤ
deriving DecidableEq, Repr

/-- Drag mode captured at pointer down: new range, adjust the start handle,
or adjust the end handle. -/
inductive DragMode where
  | newRange
  | adjStart
  | adjEnd
deriving DecidableEq, Repr

/-- clamp of app.js. -/
def clampZ (v lo hi : ℤ) : ℤ := max lo (min hi v)

/-- clamp of app.js over the rationals. -/
def clampQ (v lo hi : ℚ) : ℚ := max lo (min hi v)

/-- posToSlot of app.js: clamp the pointer x into the grid, round to the
nearest slot boundary, clamp into 0..totalSlots. -/
def posToSlot (clientX rectLeft hourWidth sph : ℚ) (totalSlots : ℤ) : ℤ :=
  let x := clampQ (clientX - rectLeft) 0 (hourWidth * 24)
  let slotW := hourWidth / sph
  let slot := ⌊x / slotW + 1 / 2⌋
  clampZ slot 0 totalSlots

/-- onPointerMove of app.js: create the selection at the pointer slot if
absent, update the field of the active mode, then normalize the stored order
by swapping when the end fell below the start. -/
def onPointerMove (mode : DragMode) (slot : ℤ) (sel : Option Sel) : Sel :=
  let s0 := sel.getD ⟨slot, slot⟩
  let s1 :=
    match mode with
    | .newRange => ⟨s0.start, slot⟩
    | .adjStart => (⟨min slot (s0.stop - 1), s0.stop⟩ : Sel)
    | .adjEnd => (⟨s0.start, max slot (s0.start + 1)⟩ : Sel)
  if s1.stop < s1.start then ⟨s1.stop, s1.start⟩ else s1

/-- pointerdown handler of app.js: a new-range press resets the selection to
a zero-width range at the pressed slot, then the handler immediately invokes
onPointerMove with the same pointer position. -/
def pointerDown (mode : DragMode) (slot : ℤ) (sel : Option Sel) : Sel :=
  onPointerMove mode slot (if mode = DragMode.newRange then some ⟨slot, slot⟩ else sel)

/-- Candidate block of app.js: id, civil date, and nullable selection (the
display name is derived from the position and carries no state). -/
structure Block where
  id : ℕ
  date : DateObj
  selection : Option Sel
deriving DecidableEq, Repr

/-- ensureAtLeastOneBlock of app.js: recreate a default block when the list
is empty. The default block (built from the current instant in the top city
timezone) is passed as a parameter. -/
def ensureAtLeastOneBlock (dflt : Block) (bs : List Block) : List Block :=
  if bs.isEmpty then [dflt] else bs

/-- addBlock of app.js: no-op at the 5-block cap, otherwise append a clone of
the last block with a fresh id. Reading the last block of an empty list would
throw in the source, modelled as none. -/
def addBlock (fresh : ℕ) (bs : List Block) : Option (List Block) :=
  if 5 ≤ bs.length then some bs
  else
    match bs.getLast? with
    | none => none
    | some prev => some (bs ++ [⟨fresh, prev.date, prev.selection⟩])

/-- deleteBlock of app.js: drop the block with the given id, then recreate a
default block if none remain. -/
def deleteBlock (dflt : Block) (i : ℕ) (bs : List Block) : List Block :=
  ensureAtLeastOneBlock dflt (bs.filter (fun b => b.id != i))

/-- Tracked city of app.js, reduced to the fields the claims depend on. -/
structure City where
  id : ℕ
  tzId : ℤ
  isCurrent : Bool
deriving DecidableEq, Repr

/-- Application state touched by addCity: the tracked-city list and the
candidate list (each is persisted verbatim after mutation). -/
structure AppState where
  cities : List City
  blocks : List Block
deriving DecidableEq, Repr

/-- addCity of app.js: return unchanged when a city with the same id is
already tracked, otherwise append the trimmed record, persist, and ensure at
least one candidate block exists. -/
def addCity (dflt : Block) (st : AppState) (city : City) : AppState :=
  if st.cities.any (fun c => c.id == city.id) then st
  else
    { cities := st.cities ++ [⟨city.id, city.tzId, city.isCurrent⟩],
      blocks := ensureAtLeastOneBlock dflt st.blocks }

/- ==================== Scan-loop characterization lemmas ==================== -/

theorem scanAux_eq_find (d : DateObj) (tz : Tz) :
    ∀ (n : ℕ) (ts : ℤ),
      scanAux d tz n ts =
        ((List.range n).map (fun k : ℕ => ts + 60000 * (k : ℤ))).find? (midnightMatch d tz) := by
  intro n
  induction n with
  | zero => intro ts; simp [scanAux]
  | succ n ih =>
      intro ts
      rw [List.range_succ_eq_map, List.map_cons, List.map_map, scanAux]
      have hmap :
          (List.range n).map ((fun k : ℕ => ts + 60000 * (k : ℤ)) ∘ Nat.succ) =
            (List.range n).map (fun k : ℕ => (ts + 60000) + 60000 * (k : ℤ)) := by
        refine List.map_congr_left ?_
        intro k _
        simp only [Function.comp_apply]
        push_cast
        ring
      simp only [Nat.cast_zero, mul_zero, add_zero]
      cases hm : midnightMatch d tz ts with
      | true => rw [List.find?_cons_of_pos _ hm]; simp
      | false =>
          rw [List.find?_cons_of_neg _ (by simp [hm]), hmap, ih (ts + 60000)]
          simp

theorem scanAux_none_add (d : DateObj) (tz : Tz) (m n : ℕ) (ts ts2 : ℤ)
    (hm : scanAux d tz m ts = none) (hts : ts2 = ts + 60000 * (m : ℤ))
    (hn : scanAux d tz n ts2 = none) :
    scanAux d tz (m + n) ts = none := by
  induction m generalizing ts with
  | zero =>
      have h : ts2 = ts := by simpa using hts
      subst h
      simpa using hn
  | succ m ih =>
      rw [scanAux] at hm
      by_cases hmt : midnightMatch d tz ts
      · rw [if_pos hmt] at hm; exact absurd hm (by simp)
      · rw [if_neg hmt] at hm
        have h : m + 1 + n = (m + n) + 1 := by omega
        rw [h, scanAux, if_neg hmt]
        exact ih (ts + 60000) hm (by rw [hts]; push_cast; ring)

theorem sixtyK_dvd_scanStart (d : DateObj) : (60000 : ℤ) ∣ scanStart d := by
  refine ⟨(daysFromCivil d.year d.month d.day - 1) * 1440, ?_⟩
  unfold scanStart dateUTC
  ring

theorem utcFields_second_eq_zero (t : ℤ) (h : (60000 : ℤ) ∣ t) :
    (utcFields t).second = 0 := by
  show ((t.emod 86400000).emod 60000).ediv 1000 = 0
  have h2 : (t.emod 86400000).emod 60000 = t.emod 60000 :=
    Int.emod_emod_of_dvd t (by norm_num)
  have h3 : t.emod 60000 = 0 := Int.emod_eq_zero_of_dvd h
  rw [h2, h3]
  rfl

set_option maxRecDepth 40000 in
theorem scanChunk1 : scanAux ⟨2018, 11, 4⟩ tzSaoPaulo 1100 1541203200000 = none := by decide

set_option maxRecDepth 40000 in
theorem scanChunk2 : scanAux ⟨2018, 11, 4⟩ tzSaoPaulo 1100 1541269200000 = none := by decide

set_option maxRecDepth 40000 in
theorem scanChunk3 : scanAux ⟨2018, 11, 4⟩ tzSaoPaulo 1100 1541335200000 = none := by decide

set_option maxRecDepth 40000 in
theorem scanChunk4 : scanAux ⟨2018, 11, 4⟩ tzSaoPaulo 1021 1541401200000 = none := by decide

/- ==================== C1 ==================== -/

/-- C1 (amended): whenever the scanned window contains an instant whose civil
fields in the zone are the target date at 00:00 - that is, whenever local
midnight of that date exists, which holds for every whole-minute offset zone,
half-hour and 45-minute zones and dates on either side of a transition not
touching midnight itself - the instant returned by zonedMidnightUtcMs has
civil fields in that timezone equal to exactly that date at 00:00:00. When
the zone skips local midnight the fallback result does not satisfy this (see
the counterexample). -/
theorem zonedMidnightUtcMs_civil_fields (d : DateObj) (tz : Tz)
    (h : ∃ k, k < scanCount ∧
      midnightMatch d tz (scanStart d + 60000 * (k : ℤ)) = true) :
    (partsFromTs (zonedMidnightUtcMs d tz) tz).year = d.year ∧
    (partsFromTs (zonedMidnightUtcMs d tz) tz).month = d.month ∧
    (partsFromTs (zonedMidnightUtcMs d tz) tz).day = d.day ∧
    (partsFromTs (zonedMidnightUtcMs d tz) tz).hour = 0 ∧
    (partsFromTs (zonedMidnightUtcMs d tz) tz).minute = 0 ∧
    (partsFromTs (zonedMidnightUtcMs d tz) tz).second = 0 := by
  obtain ⟨k, hk, hmat⟩ := h
  have hmem : scanStart d + 60000 * (k : ℤ) ∈
      (List.range scanCount).map (fun k : ℕ => scanStart d + 60000 * (k : ℤ)) :=
    List.mem_map.mpr ⟨k, List.mem_range.mpr hk, rfl⟩
  have hsome : (((List.range scanCount).map
      (fun k : ℕ => scanStart d + 60000 * (k : ℤ))).find? (midnightMatch d tz)).isSome := by
    rw [List.find?_isSome]
    exact ⟨_, hmem, hmat⟩
  obtain ⟨r, hr⟩ := Option.isSome_iff_exists.mp hsome
  have hscan : scanAux d tz scanCount (scanStart d) = some r := by
    rw [scanAux_eq_find]; exact hr
  have hz : zonedMidnightUtcMs d tz = r := by unfold zonedMidnightUtcMs; rw [hscan]
  have hpred : midnightMatch d tz r = true := List.find?_some hr
  have hrl := List.mem_of_find?_eq_some hr
  obtain ⟨k2, _, hrk⟩ := List.mem_map.mp hrl
  have halign : (60000 : ℤ) ∣ (r + tz.off r * 60000) := by
    obtain ⟨c, hc⟩ := sixtyK_dvd_scanStart d
    exact ⟨c + (k2 : ℤ) + tz.off r, by rw [← hrk, hc]; ring⟩
  have hsec : (partsFromTs r tz).second = 0 :=
    utcFields_second_eq_zero (r + tz.off r * 60000) halign
  simp only [midnightMatch, Bool.and_eq_true, beq_iff_eq] at hpred
  rw [hz]
  exact ⟨hpred.1.1.1.1, hpred.1.1.1.2, hpred.1.1.2, hpred.1.2, hpred.2, hsec⟩

/-- C1 witness: the amended theorem applied to 2024-03-10 in a half-hour
offset zone (UTC+05:30); local midnight sits 1110 scan steps into the window. -/
theorem zonedMidnightUtcMs_civil_fields_witness :
    (∃ k, k < scanCount ∧
      midnightMatch ⟨2024, 3, 10⟩ tzKolkata
        (scanStart ⟨2024, 3, 10⟩ + 60000 * (k : ℤ)) = true) ∧
    ((partsFromTs (zonedMidnightUtcMs ⟨2024, 3, 10⟩ tzKolkata) tzKolkata).year = 2024 ∧
     (partsFromTs (zonedMidnightUtcMs ⟨2024, 3, 10⟩ tzKolkata) tzKolkata).month = 3 ∧
     (partsFromTs (zonedMidnightUtcMs ⟨2024, 3, 10⟩ tzKolkata) tzKolkata).day = 10 ∧
     (partsFromTs (zonedMidnightUtcMs ⟨2024, 3, 10⟩ tzKolkata) tzKolkata).hour = 0 ∧
     (partsFromTs (zonedMidnightUtcMs ⟨2024, 3, 10⟩ tzKolkata) tzKolkata).minute = 0 ∧
     (partsFromTs (zonedMidnightUtcMs ⟨2024, 3, 10⟩ tzKolkata) tzKolkata).second = 0) :=
  ⟨⟨1110, by norm_num [scanCount], by decide⟩,
    zonedMidnightUtcMs_civil_fields ⟨2024, 3, 10⟩ tzKolkata
      ⟨1110, by norm_num [scanCount], by decide⟩⟩

/-- C1 counterexample: in the model of America/Sao_Paulo, whose 2018
spring-forward skips local midnight of 2018-11-04 (clocks jump 00:00 to
01:00), the scan finds no match and the fallback instant formats to 01:00,
not 00:00 - so the claimed universal property fails for this host-supported
IANA timezone and date. -/
theorem zonedMidnightUtcMs_skipped_midnight_counterexample :
    (partsFromTs (zonedMidnightUtcMs ⟨2018, 11, 4⟩ tzSaoPaulo) tzSaoPaulo).hour ≠ 0 := by
  have h34 : scanAux ⟨2018, 11, 4⟩ tzSaoPaulo (1100 + 1021) 1541335200000 = none :=
    scanAux_none_add _ _ _ _ _ _ scanChunk3 (by norm_num) scanChunk4
  have h234 : scanAux ⟨2018, 11, 4⟩ tzSaoPaulo (1100 + (1100 + 1021)) 1541269200000 = none :=
    scanAux_none_add _ _ _ _ _ _ scanChunk2 (by norm_num) h34
  have hall :
      scanAux ⟨2018, 11, 4⟩ tzSaoPaulo (1100 + (1100 + (1100 + 1021))) 1541203200000 = none :=
    scanAux_none_add _ _ _ _ _ _ scanChunk1 (by norm_num) h234
  have hcount : (1100 + (1100 + (1100 + 1021))) = scanCount := by norm_num [scanCount]
  have hstart : scanStart ⟨2018, 11, 4⟩ = 1541203200000 := by decide
  have hnone : scanAux ⟨2018, 11, 4⟩ tzSaoPaulo scanCount (scanStart ⟨2018, 11, 4⟩) = none := by
    rw [← hcount, hstart]; exact hall
  unfold zonedMidnightUtcMs
  rw [hnone]
  decide

/- ==================== C2 ==================== -/

/-- C2 (amended): for every civil date and timezone, zonedMidnightUtcMs is
exactly the first-match minute scan with offset-subtraction fallback, over
the window of 4321 one-minute candidates centered at UTC NOON of the date
(that is, from 24 hours before to 48 hours after the naive UTC-midnight
guess) - not, as the claim words it, the window of plus or minus 36 hours
around the naive UTC-midnight guess. -/
theorem zonedMidnightUtcMs_scan_characterization (d : DateObj) (tz : Tz) :
    zonedMidnightUtcMs d tz = specMidnight d tz := by
  unfold zonedMidnightUtcMs specMidnight
  rw [scanAux_eq_find]

set_option maxRecDepth 80000 in
set_option maxHeartbeats 2000000 in
/-- C2 counterexample: a zone whose offset is UTC+30:00 early in the window
and UTC+00:00 later has local midnight of 2020-01-05 at two instants, 30
hours before and exactly at the naive guess; the scan described by the claim
(window centered at the midnight guess) would return the earlier one, but the
source scan (window centered at noon) starts after it and returns the naive
guess itself. -/
theorem zonedMidnightUtcMs_window_counterexample :
    zonedMidnightUtcMs ⟨2020, 1, 5⟩ tzWindow ≠ claimMidnight ⟨2020, 1, 5⟩ tzWindow := by
  decide

/- ==================== C3 ==================== -/

theorem normNeg_eq_emod : ∀ (l : ℤ), l < 1440 → normNeg l = l.emod 1440 := by
  intro l
  induction l using normNeg.induct with
  | case1 x hneg ih =>
      intro _
      have h2 : x + 1440 < 1440 := by omega
      have ih2 := ih h2
      rw [normNeg, if_pos hneg, ih2]
      show (x + 1440) % 1440 = x % 1440
      simp
  | case2 x hneg =>
      intro hx
      rw [normNeg, if_neg hneg]
      exact (Int.emod_eq_of_lt (by omega) hx).symm

/-- C3 (amended): for every leftOffsetMinutes BELOW 1440 (negative allowed)
and every width with 0 < width ≤ 1440, makeWrappedRect first shifts the left
offset into the canonical day - on this domain the repeated-addition loop
agrees with the positive-remainder modulo - and then the returned widths sum
to the width, every returned pair lies inside the day, and the result is one
segment exactly when the normalized interval does not cross the 1440
boundary and the stated two segments when it does. For leftOffsetMinutes of
1440 or more the source performs no normalization and the claim fails (see
the counterexample). -/
theorem makeWrappedRect_spec (L W : ℤ) (hL : L < 1440) (hW0 : 0 < W) (hW : W ≤ 1440) :
    ((makeWrappedRect L W).map Prod.snd).sum = W ∧
    (∀ p ∈ makeWrappedRect L W, 0 ≤ p.1 ∧ p.1 + p.2 ≤ 1440) ∧
    normNeg L = L.emod 1440 ∧
    (L.emod 1440 + W ≤ 1440 → makeWrappedRect L W = [(L.emod 1440, W)]) ∧
    (1440 < L.emod 1440 + W →
      makeWrappedRect L W =
        [(L.emod 1440, 1440 - L.emod 1440), (0, W - (1440 - L.emod 1440))]) := by
  have hnorm := normNeg_eq_emod L hL
  have h0 : 0 ≤ L.emod 1440 := Int.emod_nonneg L (by norm_num)
  have h1 : L.emod 1440 < 1440 := Int.emod_lt_of_pos L (by norm_num)
  unfold makeWrappedRect
  rw [hnorm]
  by_cases hc : L.emod 1440 + W ≤ 1440
  · rw [if_pos hc]
    refine ⟨by simp, ?_, rfl, fun _ => rfl, fun hlt => absurd hc (by omega)⟩
    intro p hp
    simp only [List.mem_singleton] at hp
    subst hp
    dsimp only
    omega
  · rw [if_neg hc]
    refine ⟨by simp, ?_, rfl, fun hle => absurd hle hc, fun _ => rfl⟩
    intro p hp
    simp only [List.mem_cons, List.mem_singleton, List.not_mem_nil, or_false] at hp
    rcases hp with hp | hp <;> (subst hp; dsimp only; omega)

/-- C3 witness: the amended theorem applied to a negative left offset that
wraps across the day boundary. -/
theorem makeWrappedRect_spec_witness :
    ((-100 : ℤ) < 1440 ∧ (0 : ℤ) < 200 ∧ (200 : ℤ) ≤ 1440) ∧
    (((makeWrappedRect (-100) 200).map Prod.snd).sum = 200 ∧
     (∀ p ∈ makeWrappedRect (-100) 200, 0 ≤ p.1 ∧ p.1 + p.2 ≤ 1440) ∧
     normNeg (-100) = (-100 : ℤ).emod 1440 ∧
     ((-100 : ℤ).emod 1440 + 200 ≤ 1440 →
       makeWrappedRect (-100) 200 = [((-100 : ℤ).emod 1440, 200)]) ∧
     (1440 < (-100 : ℤ).emod 1440 + 200 →
       makeWrappedRect (-100) 200 =
         [((-100 : ℤ).emod 1440, 1440 - (-100 : ℤ).emod 1440),
          (0, 200 - (1440 - (-100 : ℤ).emod 1440))])) :=
  ⟨⟨by norm_num, by norm_num, by norm_num⟩,
    makeWrappedRect_spec (-100) 200 (by norm_num) (by norm_num) (by norm_num)⟩

/-- C3 counterexample: at leftOffsetMinutes = 1500 the modulo-normalized
interval [60, 120) does not cross the boundary, so the claim demands one
segment starting at 60; the source leaves 1500 unnormalized and returns two
segments, the first starting at 1500 with negative width. -/
theorem makeWrappedRect_unnormalized_counterexample :
    (1500 : ℤ).emod 1440 = 60 ∧ (60 : ℤ) + 60 ≤ 1440 ∧
    makeWrappedRect 1500 60 = [(1500, -60), (0, 120)] := by
  have hn : normNeg 1500 = 1500 := by rw [normNeg]; norm_num
  refine ⟨by decide, by norm_num, ?_⟩
  simp [makeWrappedRect, hn]

/- ==================== C5 ==================== -/

/-- C5: for every local hour in 0..23, comfortWeight returns exactly 3 on
working hours 9-17, 2 on the shoulders 7-8 and 18-20, 1 on the fringe hours
6 and 21-22, and 0 otherwise. -/
theorem comfortWeight_step_function (h : ℤ) (h0 : 0 ≤ h) (h23 : h ≤ 23) :
    ((9 ≤ h ∧ h < 18) → comfortWeight h = 3) ∧
    (((7 ≤ h ∧ h < 9) ∨ (18 ≤ h ∧ h < 21)) → comfortWeight h = 2) ∧
    ((h = 6 ∨ (21 ≤ h ∧ h < 23)) → comfortWeight h = 1) ∧
    ((¬(9 ≤ h ∧ h < 18) ∧ ¬((7 ≤ h ∧ h < 9) ∨ (18 ≤ h ∧ h < 21)) ∧
        ¬(h = 6 ∨ (21 ≤ h ∧ h < 23))) → comfortWeight h = 0) := by
  unfold comfortWeight
  refine ⟨fun hc => ?_, fun hc => ?_, fun hc => ?_, fun hc => ?_⟩
  all_goals split_ifs <;> first | rfl | omega

/-- C5 witness: the step function at hour 10. -/
theorem comfortWeight_step_function_witness :
    ((0 : ℤ) ≤ 10 ∧ (10 : ℤ) ≤ 23) ∧
    (((9 ≤ (10 : ℤ) ∧ (10 : ℤ) < 18) → comfortWeight 10 = 3) ∧
     (((7 ≤ (10 : ℤ) ∧ (10 : ℤ) < 9) ∨ (18 ≤ (10 : ℤ) ∧ (10 : ℤ) < 21)) →
        comfortWeight 10 = 2) ∧
     (((10 : ℤ) = 6 ∨ (21 ≤ (10 : ℤ) ∧ (10 : ℤ) < 23)) → comfortWeight 10 = 1) ∧
     ((¬(9 ≤ (10 : ℤ) ∧ (10 : ℤ) < 18) ∧
        ¬((7 ≤ (10 : ℤ) ∧ (10 : ℤ) < 9) ∨ (18 ≤ (10 : ℤ) ∧ (10 : ℤ) < 21)) ∧
        ¬((10 : ℤ) = 6 ∨ (21 ≤ (10 : ℤ) ∧ (10 : ℤ) < 23))) → comfortWeight 10 = 0)) :=
  ⟨⟨by norm_num, by norm_num⟩, comfortWeight_step_function 10 (by norm_num) (by norm_num)⟩

/- ==================== C4 / C6 ==================== -/

theorem consensus_foldl_flatten (qf : ℕ → ℚ) :
    ∀ (l : List ℕ) (segs : List CSeg) (c : CSeg),
      ((l.foldl (consensusStep qf) (segs, some c)).1 ++
        (l.foldl (consensusStep qf) (segs, some c)).2.toList) = segs ++ rleRun qf c l := by
  intro l
  induction l with
  | nil => intro segs c; simp [rleRun]
  | cons s rest ih =>
      intro segs c
      rw [List.foldl_cons, rleRun]
      by_cases hq : c.q = qf s
      · have hstep : consensusStep qf (segs, some c) s = (segs, some ⟨c.q, c.start, s + 1⟩) := by
          unfold consensusStep
          simp [hq]
        rw [hstep, if_pos hq]
        exact ih segs ⟨c.q, c.start, s + 1⟩
      · have hstep : consensusStep qf (segs, some c) s = (segs ++ [c], some ⟨qf s, s, s + 1⟩) := by
          unfold consensusStep
          simp [hq]
        rw [hstep, if_neg hq]
        rw [ih (segs ++ [c]) ⟨qf s, s, s + 1⟩]
        simp

theorem consensusSegsList_eq_specRLE (qf : ℕ → ℚ) (l : List ℕ) :
    consensusSegsList qf l = specRLE qf l := by
  cases l with
  | nil => rfl
  | cons s rest =>
      unfold consensusSegsList specRLE
      rw [List.foldl_cons]
      have h1 : consensusStep qf ([], none) s = ([], some ⟨qf s, s, s + 1⟩) := rfl
      rw [h1]
      simpa using consensus_foldl_flatten qf rest [] ⟨qf s, s, s + 1⟩

theorem rleRun_props (qf : ℕ → ℚ) :
    ∀ (k : ℕ) (c : CSeg), c.start < c.stop →
      (∀ g ∈ rleRun qf c (List.range' c.stop k),
        c.start ≤ g.start ∧ g.start < g.stop ∧ g.stop ≤ c.stop + k) ∧
      (rleRun qf c (List.range' c.stop k)).Pairwise (fun x y => x.stop ≤ y.start) := by
  intro k
  induction k with
  | zero =>
      intro c hc
      constructor
      · intro g hg
        simp only [List.range', rleRun, List.mem_singleton] at hg
        subst hg
        exact ⟨le_refl _, hc, by omega⟩
      · simp [List.range', rleRun]
  | succ k ih =>
      intro c hc
      have hr : List.range' c.stop (k + 1) = c.stop :: List.range' (c.stop + 1) k := rfl
      rw [hr, rleRun]
      by_cases hq : c.q = qf c.stop
      · rw [if_pos hq]
        have := ih ⟨c.q, c.start, c.stop + 1⟩ (by dsimp only; omega)
        dsimp only at this
        constructor
        · intro g hg
          have h2 := this.1 g hg
          exact ⟨h2.1, h2.2.1, by omega⟩
        · exact this.2
      · rw [if_neg hq]
        have := ih ⟨qf c.stop, c.stop, c.stop + 1⟩ (by dsimp only; omega)
        dsimp only at this
        constructor
        · intro g hg
          simp only [List.mem_cons] at hg
          rcases hg with hg | hg
          · subst hg; exact ⟨le_refl _, hc, by omega⟩
          · have h2 := this.1 g hg
            exact ⟨by omega, h2.2.1, by omega⟩
        · rw [List.pairwise_cons]
          refine ⟨fun g hg => ?_, this.2⟩
          have h2 := this.1 g hg
          omega

theorem specRLE_props (qf : ℕ → ℚ) (n : ℕ) :
    (∀ g ∈ specRLE qf (List.range n), g.start < g.stop ∧ g.stop ≤ n) ∧
    (specRLE qf (List.range n)).Pairwise (fun x y => x.stop ≤ y.start) := by
  cases n with
  | zero => simp [specRLE, List.range_eq_range', List.range']
  | succ m =>
      have hr : List.range (m + 1) = 0 :: List.range' 1 m := by
        rw [List.range_eq_range']
        rfl
      rw [hr]
      unfold specRLE
      have := rleRun_props qf m ⟨qf 0, 0, 1⟩ (by norm_num)
      dsimp only at this
      exact ⟨fun g hg => ⟨(this.1 g hg).2.1, by have := (this.1 g hg).2.2; omega⟩, this.2⟩

/-- C6: the rendered consensus segment list is non-overlapping, strictly
sorted by start slot, every segment satisfies start < stop with stop at most
totalSlots = 24 * slotsPerHour, and the computation is a pure function of its
inputs, so identical inputs give identical output. -/
theorem renderConsensus_invariants (cities : List Tz) (anchor gran : ℤ) (sph : ℕ) :
    ((renderConsensus cities anchor gran sph).Pairwise (fun x y => x.stop ≤ y.start)) ∧
    ((renderConsensus cities anchor gran sph).Pairwise (fun x y => x.start < y.start)) ∧
    (∀ g ∈ renderConsensus cities anchor gran sph, g.start < g.stop ∧ g.stop ≤ 24 * sph) ∧
    renderConsensus cities anchor gran sph = renderConsensus cities anchor gran sph := by
  have hspec := specRLE_props (codeQf cities anchor gran) (24 * sph)
  have heq : renderConsensus cities anchor gran sph =
      consensusFilter (specRLE (codeQf cities anchor gran) (List.range (24 * sph))) := by
    unfold renderConsensus
    rw [consensusSegsList_eq_specRLE]
  have hsub : List.Sublist
      (consensusFilter (specRLE (codeQf cities anchor gran) (List.range (24 * sph))))
      (specRLE (codeQf cities anchor gran) (List.range (24 * sph))) := List.filter_sublist _
  have hmem : ∀ g ∈ renderConsensus cities anchor gran sph,
      g ∈ specRLE (codeQf cities anchor gran) (List.range (24 * sph)) := by
    intro g hg
    rw [heq] at hg
    exact hsub.mem hg
  have hp1 : (renderConsensus cities anchor gran sph).Pairwise (fun x y => x.stop ≤ y.start) := by
    rw [heq]
    exact hspec.2.sublist hsub
  refine ⟨hp1, ?_, fun g hg => hspec.1 g (hmem g hg), rfl⟩
  refine hp1.imp_of_mem ?_
  intro a b ha hb hab
  have h2 := hspec.1 a (hmem a ha)
  omega

theorem quantize_zero : quantize 0 = 0 := by
  unfold quantize
  have h : ⌊(0 : ℚ) * 10 + 1 / 2⌋ = 0 := by
    rw [Int.floor_eq_zero_iff]
    constructor <;> norm_num
  rw [h]
  norm_num

theorem codeQf_eq_specQf (cities : List Tz) (anchor gran : ℤ) :
    codeQf cities anchor gran = specQf cities anchor gran := by
  funext s
  simp only [codeQf, specQf]
  by_cases h : slotScore cities anchor gran s = 0
  · simp [h, quantize_zero]
  · have hpos : 0 < slotScore cities anchor gran s := Nat.pos_of_ne_zero h
    have hne : cities ≠ [] := by
      intro hnil
      rw [hnil] at hpos
      simp [slotScore] at hpos
    have hlen : 1 ≤ cities.length := by
      cases cities with
      | nil => exact absurd rfl hne
      | cons a l => simp
    have hmax : max 1 cities.length = cities.length := Nat.max_eq_right hlen
    simp [Nat.le_zero, h, hmax]

/-- C4 (amended): the rendered consensus equals the claim pipeline amended
with the zero-score rule of the source: every slot gets score
sum of hourComfort over the cities, a zero score maps to intensity 0 and a
positive score to min(0.25, 0.05 + 0.2 * score / (3 * cityCount)) (for a
positive score the city list is nonempty, so the max(1, cityCount) of the
source equals cityCount), intensities are quantized to one decimal,
run-length-encoded over adjacent equal slots, and segments with nonpositive
intensity or narrower than 2 slot widths are dropped. The claim as stated
omits the zero-score rule (see the counterexample). -/
theorem renderConsensus_eq_spec (cities : List Tz) (anchor gran : ℤ) (sph : ℕ) :
    renderConsensus cities anchor gran sph = specConsensus cities anchor gran sph := by
  unfold renderConsensus specConsensus
  rw [codeQf_eq_specQf, consensusSegsList_eq_specRLE]



/-- C4 counterexample: the claim maps a zero-score slot to intensity
min(0.25, 0.05) = 0.05, which quantizes to 0.1 and would render night bands;
the source short-circuits zero scores to intensity 0 and drops them. For a
single UTC city the two pipelines disagree on the night segments. -/
theorem renderConsensus_zero_score_counterexample :
    renderConsensus [tzUTC] 0 60 1 ≠ claimConsensus [tzUTC] 0 60 1 := by
  have hrange : List.range (24 * 1) = [0, 1, 2, 3, 4, 5, 6, 7, 8, 9, 10, 11, 12, 13, 14,
      15, 16, 17, 18, 19, 20, 21, 22, 23] := by decide
  have hc0 : codeQf [tzUTC] 0 60 0 = 0 := by
    have h : slotScore [tzUTC] 0 60 0 = 0 := by decide
    unfold codeQf quantize; rw [h]; norm_num [min_def]
  have hc1 : codeQf [tzUTC] 0 60 1 = 0 := by
    have h : slotScore [tzUTC] 0 60 1 = 0 := by decide
    unfold codeQf quantize; rw [h]; norm_num [min_def]
  have hc2 : codeQf [tzUTC] 0 60 2 = 0 := by
    have h : slotScore [tzUTC] 0 60 2 = 0 := by decide
    unfold codeQf quantize; rw [h]; norm_num [min_def]
  have hc3 : codeQf [tzUTC] 0 60 3 = 0 := by
    have h : slotScore [tzUTC] 0 60 3 = 0 := by decide
    unfold codeQf quantize; rw [h]; norm_num [min_def]
  have hc4 : codeQf [tzUTC] 0 60 4 = 0 := by
    have h : slotScore [tzUTC] 0 60 4 = 0 := by decide
    unfold codeQf quantize; rw [h]; norm_num [min_def]
  have hc5 : codeQf [tzUTC] 0 60 5 = 0 := by
    have h : slotScore [tzUTC] 0 60 5 = 0 := by decide
    unfold codeQf quantize; rw [h]; norm_num [min_def]
  have hc6 : codeQf [tzUTC] 0 60 6 = 1/10 := by
    have h : slotScore [tzUTC] 0 60 6 = 1 := by decide
    unfold codeQf quantize; rw [h]; norm_num [min_def]
  have hc7 : codeQf [tzUTC] 0 60 7 = 1/5 := by
    have h : slotScore [tzUTC] 0 60 7 = 2 := by decide
    unfold codeQf quantize; rw [h]; norm_num [min_def]
  have hc8 : codeQf [tzUTC] 0 60 8 = 1/5 := by
    have h : slotScore [tzUTC] 0 60 8 = 2 := by decide
    unfold codeQf quantize; rw [h]; norm_num [min_def]
  have hc9 : codeQf [tzUTC] 0 60 9 = 3/10 := by
    have h : slotScore [tzUTC] 0 60 9 = 3 := by decide
    unfold codeQf quantize; rw [h]; norm_num [min_def]
  have hc10 : codeQf [tzUTC] 0 60 10 = 3/10 := by
    have h : slotScore [tzUTC] 0 60 10 = 3 := by decide
    unfold codeQf quantize; rw [h]; norm_num [min_def]
  have hc11 : codeQf [tzUTC] 0 60 11 = 3/10 := by
    have h : slotScore [tzUTC] 0 60 11 = 3 := by decide
    unfold codeQf quantize; rw [h]; norm_num [min_def]
  have hc12 : codeQf [tzUTC] 0 60 12 = 3/10 := by
    have h : slotScore [tzUTC] 0 60 12 = 3 := by decide
    unfold codeQf quantize; rw [h]; norm_num [min_def]
  have hc13 : codeQf [tzUTC] 0 60 13 = 3/10 := by
    have h : slotScore [tzUTC] 0 60 13 = 3 := by decide
    unfold codeQf quantize; rw [h]; norm_num [min_def]
  have hc14 : codeQf [tzUTC] 0 60 14 = 3/10 := by
    have h : slotScore [tzUTC] 0 60 14 = 3 := by decide
    unfold codeQf quantize; rw [h]; norm_num [min_def]
  have hc15 : codeQf [tzUTC] 0 60 15 = 3/10 := by
    have h : slotScore [tzUTC] 0 60 15 = 3 := by decide
    unfold codeQf quantize; rw [h]; norm_num [min_def]
  have hc16 : codeQf [tzUTC] 0 60 16 = 3/10 := by
    have h : slotScore [tzUTC] 0 60 16 = 3 := by decide
    unfold codeQf quantize; rw [h]; norm_num [min_def]
  have hc17 : codeQf [tzUTC] 0 60 17 = 3/10 := by
    have h : slotScore [tzUTC] 0 60 17 = 3 := by decide
    unfold codeQf quantize; rw [h]; norm_num [min_def]
  have hc18 : codeQf [tzUTC] 0 60 18 = 1/5 := by
    have h : slotScore [tzUTC] 0 60 18 = 2 := by decide
    unfold codeQf quantize; rw [h]; norm_num [min_def]
  have hc19 : codeQf [tzUTC] 0 60 19 = 1/5 := by
    have h : slotScore [tzUTC] 0 60 19 = 2 := by decide
    unfold codeQf quantize; rw [h]; norm_num [min_def]
  have hc20 : codeQf [tzUTC] 0 60 20 = 1/5 := by
    have h : slotScore [tzUTC] 0 60 20 = 2 := by decide
    unfold codeQf quantize; rw [h]; norm_num [min_def]
  have hc21 : codeQf [tzUTC] 0 60 21 = 1/10 := by
    have h : slotScore [tzUTC] 0 60 21 = 1 := by decide
    unfold codeQf quantize; rw [h]; norm_num [min_def]
  have hc22 : codeQf [tzUTC] 0 60 22 = 1/10 := by
    have h : slotScore [tzUTC] 0 60 22 = 1 := by decide
    unfold codeQf quantize; rw [h]; norm_num [min_def]
  have hc23 : codeQf [tzUTC] 0 60 23 = 0 := by
    have h : slotScore [tzUTC] 0 60 23 = 0 := by decide
    unfold codeQf quantize; rw [h]; norm_num [min_def]
  have hl0 : claimQf [tzUTC] 0 60 0 = 1/10 := by
    have h : slotScore [tzUTC] 0 60 0 = 0 := by decide
    unfold claimQf quantize; rw [h]; norm_num [min_def]
  have hl1 : claimQf [tzUTC] 0 60 1 = 1/10 := by
    have h : slotScore [tzUTC] 0 60 1 = 0 := by decide
    unfold claimQf quantize; rw [h]; norm_num [min_def]
  have hl2 : claimQf [tzUTC] 0 60 2 = 1/10 := by
    have h : slotScore [tzUTC] 0 60 2 = 0 := by decide
    unfold claimQf quantize; rw [h]; norm_num [min_def]
  have hl3 : claimQf [tzUTC] 0 60 3 = 1/10 := by
    have h : slotScore [tzUTC] 0 60 3 = 0 := by decide
    unfold claimQf quantize; rw [h]; norm_num [min_def]
  have hl4 : claimQf [tzUTC] 0 60 4 = 1/10 := by
    have h : slotScore [tzUTC] 0 60 4 = 0 := by decide
    unfold claimQf quantize; rw [h]; norm_num [min_def]
  have hl5 : claimQf [tzUTC] 0 60 5 = 1/10 := by
    have h : slotScore [tzUTC] 0 60 5 = 0 := by decide
    unfold claimQf quantize; rw [h]; norm_num [min_def]
  have hl6 : claimQf [tzUTC] 0 60 6 = 1/10 := by
    have h : slotScore [tzUTC] 0 60 6 = 1 := by decide
    unfold claimQf quantize; rw [h]; norm_num [min_def]
  have hl7 : claimQf [tzUTC] 0 60 7 = 1/5 := by
    have h : slotScore [tzUTC] 0 60 7 = 2 := by decide
    unfold claimQf quantize; rw [h]; norm_num [min_def]
  have hl8 : claimQf [tzUTC] 0 60 8 = 1/5 := by
    have h : slotScore [tzUTC] 0 60 8 = 2 := by decide
    unfold claimQf quantize; rw [h]; norm_num [min_def]
  have hl9 : claimQf [tzUTC] 0 60 9 = 3/10 := by
    have h : slotScore [tzUTC] 0 60 9 = 3 := by decide
    unfold claimQf quantize; rw [h]; norm_num [min_def]
  have hl10 : claimQf [tzUTC] 0 60 10 = 3/10 := by
    have h : slotScore [tzUTC] 0 60 10 = 3 := by decide
    unfold claimQf quantize; rw [h]; norm_num [min_def]
  have hl11 : claimQf [tzUTC] 0 60 11 = 3/10 := by
    have h : slotScore [tzUTC] 0 60 11 = 3 := by decide
    unfold claimQf quantize; rw [h]; norm_num [min_def]
  have hl12 : claimQf [tzUTC] 0 60 12 = 3/10 := by
    have h : slotScore [tzUTC] 0 60 12 = 3 := by decide
    unfold claimQf quantize; rw [h]; norm_num [min_def]
  have hl13 : claimQf [tzUTC] 0 60 13 = 3/10 := by
    have h : slotScore [tzUTC] 0 60 13 = 3 := by decide
    unfold claimQf quantize; rw [h]; norm_num [min_def]
  have hl14 : claimQf [tzUTC] 0 60 14 = 3/10 := by
    have h : slotScore [tzUTC] 0 60 14 = 3 := by decide
    unfold claimQf quantize; rw [h]; norm_num [min_def]
  have hl15 : claimQf [tzUTC] 0 60 15 = 3/10 := by
    have h : slotScore [tzUTC] 0 60 15 = 3 := by decide
    unfold claimQf quantize; rw [h]; norm_num [min_def]
  have hl16 : claimQf [tzUTC] 0 60 16 = 3/10 := by
    have h : slotScore [tzUTC] 0 60 16 = 3 := by decide
    unfold claimQf quantize; rw [h]; norm_num [min_def]
  have hl17 : claimQf [tzUTC] 0 60 17 = 3/10 := by
    have h : slotScore [tzUTC] 0 60 17 = 3 := by decide
    unfold claimQf quantize; rw [h]; norm_num [min_def]
  have hl18 : claimQf [tzUTC] 0 60 18 = 1/5 := by
    have h : slotScore [tzUTC] 0 60 18 = 2 := by decide
    unfold claimQf quantize; rw [h]; norm_num [min_def]
  have hl19 : claimQf [tzUTC] 0 60 19 = 1/5 := by
    have h : slotScore [tzUTC] 0 60 19 = 2 := by decide
    unfold claimQf quantize; rw [h]; norm_num [min_def]
  have hl20 : claimQf [tzUTC] 0 60 20 = 1/5 := by
    have h : slotScore [tzUTC] 0 60 20 = 2 := by decide
    unfold claimQf quantize; rw [h]; norm_num [min_def]
  have hl21 : claimQf [tzUTC] 0 60 21 = 1/10 := by
    have h : slotScore [tzUTC] 0 60 21 = 1 := by decide
    unfold claimQf quantize; rw [h]; norm_num [min_def]
  have hl22 : claimQf [tzUTC] 0 60 22 = 1/10 := by
    have h : slotScore [tzUTC] 0 60 22 = 1 := by decide
    unfold claimQf quantize; rw [h]; norm_num [min_def]
  have hl23 : claimQf [tzUTC] 0 60 23 = 1/10 := by
    have h : slotScore [tzUTC] 0 60 23 = 0 := by decide
    unfold claimQf quantize; rw [h]; norm_num [min_def]
  have e1 : renderConsensus [tzUTC] 0 60 1 =
      [⟨1/5, 7, 9⟩, ⟨3/10, 9, 18⟩, ⟨1/5, 18, 21⟩, ⟨1/10, 21, 23⟩] := by
    unfold renderConsensus
    rw [consensusSegsList_eq_specRLE, hrange]
    norm_num [specRLE, rleRun, consensusFilter, List.filter, hc0, hc1, hc2, hc3, hc4, hc5, hc6, hc7, hc8, hc9, hc10, hc11, hc12, hc13, hc14, hc15, hc16, hc17, hc18, hc19, hc20, hc21, hc22, hc23]
  have e2 : claimConsensus [tzUTC] 0 60 1 =
      [⟨1/10, 0, 7⟩, ⟨1/5, 7, 9⟩, ⟨3/10, 9, 18⟩, ⟨1/5, 18, 21⟩, ⟨1/10, 21, 24⟩] := by
    unfold claimConsensus
    rw [hrange]
    norm_num [specRLE, rleRun, consensusFilter, List.filter, hl0, hl1, hl2, hl3, hl4, hl5, hl6, hl7, hl8, hl9, hl10, hl11, hl12, hl13, hl14, hl15, hl16, hl17, hl18, hl19, hl20, hl21, hl22, hl23]
  rw [e1, e2]
  intro hcontra
  simp at hcontra


/- ==================== C7: Levenshtein lemmas ==================== -/

theorem editDist_nil_left (bs : List Char) : editDist [] bs = bs.length := rfl

theorem editDist_nil_right : ∀ (as : List Char), editDist as [] = as.length
  | [] => rfl
  | _ :: _ => rfl

theorem editDist_cons_cons (x y : Char) (xs ys : List Char) :
    editDist (x :: xs) (y :: ys) =
      min (min (editDist xs (y :: ys) + 1) (editDist (x :: xs) ys + 1))
        (editDist xs ys + (if x = y then 0 else 1)) := rfl

theorem editDist_self : ∀ (a : List Char), editDist a a = 0 := by
  intro a
  induction a with
  | nil => rfl
  | cons x xs ih =>
      rw [editDist_cons_cons, if_pos rfl, ih]
      omega

set_option maxHeartbeats 1600000 in
theorem editDist_snoc :
    ∀ (n : ℕ) (p q : List Char), p.length + q.length ≤ n → ∀ (x y : Char),
      editDist (p ++ [x]) (q ++ [y]) =
        min (min (editDist p (q ++ [y]) + 1) (editDist (p ++ [x]) q + 1))
          (editDist p q + (if x = y then 0 else 1)) := by
  intro n
  induction n with
  | zero =>
      intro p q hlen x y
      have hp : p = [] := by
        cases p with
        | nil => rfl
        | cons a t => simp at hlen
      have hq : q = [] := by
        cases q with
        | nil => rfl
        | cons a t => simp at hlen
      subst hp; subst hq
      rfl
  | succ n ih =>
      intro p q hlen x y
      cases p with
      | nil =>
          cases q with
          | nil => rfl
          | cons z q2 =>
              have h1 := ih [] q2 (by simp at hlen ⊢; omega) x y
              simp only [List.nil_append] at h1 ⊢
              simp only [List.cons_append]
              rw [editDist_cons_cons x z [] (q2 ++ [y]), editDist_cons_cons x z [] q2, h1]
              simp only [editDist_nil_left, List.length_append, List.length_cons,
                List.length_nil]
              split_ifs <;> omega
      | cons w p2 =>
          cases q with
          | nil =>
              have h1 := ih p2 [] (by simp at hlen ⊢; omega) x y
              simp only [List.nil_append] at h1 ⊢
              simp only [List.cons_append]
              rw [editDist_cons_cons w y (p2 ++ [x]) [], editDist_cons_cons w y p2 [], h1]
              simp only [editDist_nil_right, List.length_append, List.length_cons,
                List.length_nil]
              split_ifs <;> omega
          | cons z q2 =>
              have hA := ih p2 (z :: q2) (by simp at hlen ⊢; omega) x y
              have hB := ih (w :: p2) q2 (by simp at hlen ⊢; omega) x y
              have hC := ih p2 q2 (by simp at hlen ⊢; omega) x y
              simp only [List.cons_append] at hA hB hC ⊢
              rw [editDist_cons_cons w z (p2 ++ [x]) (q2 ++ [y]), hA, hB, hC,
                editDist_cons_cons w z p2 (q2 ++ [y]),
                editDist_cons_cons w z (p2 ++ [x]) q2,
                editDist_cons_cons w z p2 q2]
              simp only [← min_add_add_right]
              simp only [add_assoc, add_comm, add_left_comm]
              simp only [min_assoc, min_comm, min_left_comm]

theorem editDist_reverse :
    ∀ (n : ℕ) (a b : List Char), a.length + b.length ≤ n →
      editDist a.reverse b.reverse = editDist a b := by
  intro n
  induction n with
  | zero =>
      intro a b hlen
      have ha : a = [] := by
        cases a with
        | nil => rfl
        | cons u t => simp at hlen
      have hb : b = [] := by
        cases b with
        | nil => rfl
        | cons u t => simp at hlen
      subst ha; subst hb
      rfl
  | succ n ih =>
      intro a b hlen
      cases a with
      | nil => simp [editDist_nil_left]
      | cons x xs =>
          cases b with
          | nil => simp [editDist_nil_right]
          | cons y ys =>
              rw [List.reverse_cons, List.reverse_cons,
                editDist_snoc (xs.reverse.length + ys.reverse.length) xs.reverse ys.reverse
                  (le_refl _) x y,
                ← List.reverse_cons y ys,
                ih xs (y :: ys) (by simp at hlen ⊢; omega),
                ← List.reverse_cons x xs,
                ih (x :: xs) ys (by simp at hlen ⊢; omega),
                ih xs ys (by simp at hlen ⊢; omega),
                editDist_cons_cons]

theorem rowFrom_headD (p q : List Char) :
    ∀ (bs : List Char), (rowFrom p q bs).headD 0 = editDist p.reverse q.reverse := by
  intro bs
  cases bs <;> rfl

theorem rowStep_rowFrom (x : Char) (p : List Char) :
    ∀ (bs q : List Char),
      editDist ((p ++ [x]).reverse) q.reverse ::
        rowStep x bs (editDist ((p ++ [x]).reverse) q.reverse) (rowFrom p q bs) =
      rowFrom (p ++ [x]) q bs := by
  intro bs
  induction bs with
  | nil => intro q; rfl
  | cons c cs ih =>
      intro q
      show editDist ((p ++ [x]).reverse) q.reverse ::
          rowStep x (c :: cs) (editDist ((p ++ [x]).reverse) q.reverse)
            (editDist p.reverse q.reverse :: rowFrom p (q ++ [c]) cs) =
        editDist ((p ++ [x]).reverse) q.reverse :: rowFrom (p ++ [x]) (q ++ [c]) cs
      rw [rowStep]
      have hhead : (rowFrom p (q ++ [c]) cs).headD 0 = editDist p.reverse (q ++ [c]).reverse :=
        rowFrom_headD p (q ++ [c]) cs
      have hv :
      min (min ((rowFrom p (q ++ [c]) cs).headD 0 + 1)
            (editDist ((p ++ [x]).reverse) q.reverse + 1))
          (editDist p.reverse q.reverse + (if x = c then 0 else 1)) =
        editDist ((p ++ [x]).reverse) ((q ++ [c]).reverse) := by
        rw [hhead]
        simp only [List.reverse_append, List.reverse_singleton, List.singleton_append]
        rw [editDist_cons_cons]
      rw [hv]
      exact congrArg _ (ih (q ++ [c]))

theorem levLoop_rowFrom (b : List Char) :
    ∀ (xs p : List Char),
      levLoop xs b (p.length + 1) (rowFrom p [] b) = rowFrom (p ++ xs) [] b := by
  intro xs
  induction xs with
  | nil => intro p; simp [levLoop]
  | cons x xs2 ih =>
      intro p
      rw [levLoop]
      have hlen : editDist ((p ++ [x]).reverse) (([] : List Char).reverse) = p.length + 1 := by
        rw [List.reverse_nil, editDist_nil_right]
        simp
      have hrow : (p.length + 1) :: rowStep x b (p.length + 1) (rowFrom p [] b) =
          rowFrom (p ++ [x]) [] b := by
        have h := rowStep_rowFrom x p b []
        rw [hlen] at h
        exact h
      rw [hrow]
      have hlen2 : p.length + 1 + 1 = (p ++ [x]).length + 1 := by simp
      rw [hlen2, ih (p ++ [x])]
      simp

theorem rowFrom_nil_eq_range : ∀ (bs q : List Char),
    rowFrom [] q bs = List.range' q.length (bs.length + 1) := by
  intro bs
  induction bs with
  | nil =>
      intro q
      show [editDist [] q.reverse] = List.range' q.length 1
      rw [editDist_nil_left]
      simp [List.range']
  | cons c cs ih =>
      intro q
      show editDist [] q.reverse :: rowFrom [] (q ++ [c]) cs =
        List.range' q.length (cs.length + 1 + 1)
      rw [editDist_nil_left, ih (q ++ [c])]
      simp [List.range']

theorem rowFrom_getLastD : ∀ (bs p q : List Char) (z : ℕ),
    (rowFrom p q bs).getLastD z = editDist p.reverse (q ++ bs).reverse := by
  intro bs
  induction bs with
  | nil => intro p q z; simp [rowFrom]
  | cons c cs ih =>
      intro p q z
      show (editDist p.reverse q.reverse :: rowFrom p (q ++ [c]) cs).getLastD z =
        editDist p.reverse (q ++ c :: cs).reverse
      rw [List.getLastD_cons, ih p (q ++ [c])]
      congr 2
      simp

/-- The dynamic program of the source levenshtein computes the reference edit
distance. -/
theorem levenshtein_eq_editDist (a b : List Char) : levenshtein a b = editDist a b := by
  unfold levenshtein
  split_ifs with hab ha hb
  · rw [hab, editDist_self]
  · rw [List.length_eq_zero] at ha
    rw [ha, editDist_nil_left]
  · rw [List.length_eq_zero] at hb
    rw [hb, editDist_nil_right]
  · have h0 : List.range (b.length + 1) = rowFrom [] [] b := by
      rw [rowFrom_nil_eq_range]
      simp [List.range_eq_range']
    rw [h0]
    have h1 : (1 : ℕ) = ([] : List Char).length + 1 := rfl
    rw [h1, levLoop_rowFrom b a []]
    rw [rowFrom_getLastD]
    simp only [List.nil_append]
    exact editDist_reverse (a.length + b.length) a b (le_refl _)


theorem foldl_add_map {α : Type} (f : α → ℕ) : ∀ (l : List α) (n : ℕ),
    l.foldl (fun acc t => acc + f t) n = n + (l.map f).sum := by
  intro l
  induction l with
  | nil => intro n; simp
  | cons a t ih => intro n; rw [List.foldl_cons, ih, List.map_cons, List.sum_cons]; omega

theorem foldl_min_step (g : Tok → ℕ) : ∀ (l : List Tok) (b : WithTop ℕ),
    l.foldl
      (fun best w =>
        if ((g w : ℕ) : WithTop ℕ) < best then ((g w : ℕ) : WithTop ℕ) else best) b =
      min b ((l.map g).minimum) := by
  intro l
  induction l with
  | nil =>
      intro b
      rw [List.foldl_nil, List.map_nil, List.minimum_nil]
      exact (min_eq_left le_top).symm
  | cons w ws ih =>
      intro b
      rw [List.foldl_cons, ih, List.map_cons, List.minimum_cons]
      have hstep : (if ((g w : ℕ) : WithTop ℕ) < b then ((g w : ℕ) : WithTop ℕ) else b) =
          min b ((g w : ℕ) : WithTop ℕ) := by
        by_cases hlt : ((g w : ℕ) : WithTop ℕ) < b
        · rw [if_pos hlt, min_eq_right hlt.le]
        · rw [if_neg hlt, min_eq_left (le_of_not_lt hlt)]
      rw [hstep, min_assoc]
      rfl

theorem bestDist_eq (t : Tok) (cands : List Tok) :
    bestDist t cands = (cands.map (fun w => editDist t w)).minimum := by
  unfold bestDist
  rw [foldl_min_step (fun w => levenshtein t w) cands ⊤, min_eq_right le_top]
  exact congrArg List.minimum
    (List.map_congr_left (fun w _ => levenshtein_eq_editDist t w))

theorem fuzzyContrib_eq_claimFuzzy (idx : SIndex) (t : Tok) :
    fuzzyContrib idx t = claimFuzzy idx t := by
  unfold fuzzyContrib claimFuzzy
  rw [bestDist_eq]

/-- C7: scoreItem is the additive sum the claim describes - per base token
+15 prefix, +12 token-set, +10 whole-word else +6 bare substring; per kana
token the analogous +14/+11/+9/+5 (the source skips empty kana tokens, and the
tokenizer never produces them, here a hypothesis); +3 flat when curated; and
when the accumulated match score (the base and kana sums) is below 10, per
query token +6 when the minimum unit-cost edit distance to an indexed token
of length 3..12 is at most 1 and +3 when that minimum is exactly 2. The
dynamic program of the source levenshtein function is proved equal to the
reference edit distance (levenshtein_eq_editDist). -/
theorem scoreItem_spec (idx : SIndex) (tokens kanaToks : List Tok)
    (h : ∀ kt ∈ kanaToks, kt ≠ []) :
    scoreItem idx tokens kanaToks = claimScore idx tokens kanaToks := by
  simp only [scoreItem, claimScore]
  have h1 : tokens.foldl (fun acc t => acc + baseContrib idx t) 0 =
      (tokens.map (baseContrib idx)).sum := by
    rw [foldl_add_map, Nat.zero_add]
  have h2 : ∀ n : ℕ,
      kanaToks.foldl (fun acc kt => acc + (if kt = [] then 0 else kanaContrib idx kt)) n =
        n + (kanaToks.map (kanaContrib idx)).sum := by
    intro n
    rw [foldl_add_map (fun kt => if kt = [] then 0 else kanaContrib idx kt)]
    congr 1
    refine congrArg List.sum (List.map_congr_left ?_)
    intro kt hkt
    rw [if_neg (h kt hkt)]
  have h3 : tokens.foldl (fun acc t => acc + fuzzyContrib idx t) 0 =
      (tokens.map (claimFuzzy idx)).sum := by
    rw [foldl_add_map, Nat.zero_add]
    exact congrArg List.sum (List.map_congr_left (fun t _ => fuzzyContrib_eq_claimFuzzy idx t))
  rw [h1, h2, h3]
  by_cases hc : (tokens.map (baseContrib idx)).sum + (kanaToks.map (kanaContrib idx)).sum < 10 <;>
    by_cases hcur : idx.isCurated = true <;>
    (simp [hc, hcur]; try omega)

/-- C7 witness: a curated one-entry index scored against the query tok. -/
theorem scoreItem_spec_witness :
    (∀ kt ∈ [['a']], kt ≠ ([] : List Char)) ∧
    scoreItem ⟨['t', 'o', 'k', 'y', 'o'], [], [['t', 'o', 'k', 'y', 'o']], [], true⟩
        [['t', 'o', 'k']] [['a']] =
      claimScore ⟨['t', 'o', 'k', 'y', 'o'], [], [['t', 'o', 'k', 'y', 'o']], [], true⟩
        [['t', 'o', 'k']] [['a']] :=
  ⟨by decide,
    scoreItem_spec ⟨['t', 'o', 'k', 'y', 'o'], [], [['t', 'o', 'k', 'y', 'o']], [], true⟩
      [['t', 'o', 'k']] [['a']] (by decide)⟩


/- ==================== C8 / C9 / C10 ==================== -/

/-- C8 (amended): after every interactive selection edit (pointer down,
pointer move in any drag mode, and pointer up, which stores the selection
unchanged), the stored selection is order-normalized (start ≤ stop) and lies
within -1 ≤ start ≤ totalSlots and 0 ≤ stop ≤ totalSlots + 1, and posToSlot
always lands in [0, totalSlots]. The claimed strict bound
0 ≤ start < stop ≤ totalSlots fails: a click without movement stores a
zero-width selection (see the counterexample), and dragging a handle of a
zero-width selection at a day edge stores start = -1 or stop = totalSlots+1. -/
theorem onPointerMove_invariant (T slot : ℤ) (mode : DragMode) (sel : Option Sel)
    (hs0 : 0 ≤ slot) (hsT : slot ≤ T)
    (hsel : ∀ s, sel = some s →
      s.start ≤ s.stop ∧ -1 ≤ s.start ∧ s.start ≤ T ∧ 0 ≤ s.stop ∧ s.stop ≤ T + 1) :
    ((onPointerMove mode slot sel).start ≤ (onPointerMove mode slot sel).stop ∧
     -1 ≤ (onPointerMove mode slot sel).start ∧ (onPointerMove mode slot sel).start ≤ T ∧
     0 ≤ (onPointerMove mode slot sel).stop ∧ (onPointerMove mode slot sel).stop ≤ T + 1) ∧
    ((pointerDown mode slot sel).start ≤ (pointerDown mode slot sel).stop ∧
     -1 ≤ (pointerDown mode slot sel).start ∧ (pointerDown mode slot sel).start ≤ T ∧
     0 ≤ (pointerDown mode slot sel).stop ∧ (pointerDown mode slot sel).stop ≤ T + 1) ∧
    (∀ (cx rl hw sph : ℚ), 0 ≤ posToSlot cx rl hw sph T ∧ posToSlot cx rl hw sph T ≤ T) := by
  have hmove : ∀ (sel2 : Option Sel),
      (∀ s, sel2 = some s →
        s.start ≤ s.stop ∧ -1 ≤ s.start ∧ s.start ≤ T ∧ 0 ≤ s.stop ∧ s.stop ≤ T + 1) →
      ((onPointerMove mode slot sel2).start ≤ (onPointerMove mode slot sel2).stop ∧
       -1 ≤ (onPointerMove mode slot sel2).start ∧ (onPointerMove mode slot sel2).start ≤ T ∧
       0 ≤ (onPointerMove mode slot sel2).stop ∧ (onPointerMove mode slot sel2).stop ≤ T + 1) := by
    intro sel2 hinv
    cases sel2 with
    | none =>
        cases mode <;>
          (simp only [onPointerMove, Option.getD_none]; split_ifs <;> (dsimp only; omega))
    | some s =>
        have hs := hinv s rfl
        cases mode <;>
          (simp only [onPointerMove, Option.getD_some]; split_ifs <;> (dsimp only; omega))
  refine ⟨hmove sel hsel, ?_, ?_⟩
  · unfold pointerDown
    by_cases hm : mode = DragMode.newRange
    · rw [if_pos hm]
      refine hmove (some ⟨slot, slot⟩) ?_
      intro s hs
      injection hs with hs2
      subst hs2
      dsimp only
      omega
    · rw [if_neg hm]
      exact hmove sel hsel
  · intro cx rl hw sph
    unfold posToSlot clampZ
    dsimp only
    constructor <;> omega

/-- C8 witness: the amended invariant for a new-range press at slot 5 with
totalSlots = 24. -/
theorem onPointerMove_invariant_witness :
    ((0 : ℤ) ≤ 5 ∧ (5 : ℤ) ≤ 24 ∧
      (∀ s, (none : Option Sel) = some s →
        s.start ≤ s.stop ∧ -1 ≤ s.start ∧ s.start ≤ 24 ∧ 0 ≤ s.stop ∧ s.stop ≤ 24 + 1)) ∧
    (((onPointerMove DragMode.newRange 5 none).start ≤ (onPointerMove DragMode.newRange 5 none).stop ∧
      -1 ≤ (onPointerMove DragMode.newRange 5 none).start ∧
      (onPointerMove DragMode.newRange 5 none).start ≤ 24 ∧
      0 ≤ (onPointerMove DragMode.newRange 5 none).stop ∧
      (onPointerMove DragMode.newRange 5 none).stop ≤ 24 + 1) ∧
     ((pointerDown DragMode.newRange 5 none).start ≤ (pointerDown DragMode.newRange 5 none).stop ∧
      -1 ≤ (pointerDown DragMode.newRange 5 none).start ∧
      (pointerDown DragMode.newRange 5 none).start ≤ 24 ∧
      0 ≤ (pointerDown DragMode.newRange 5 none).stop ∧
      (pointerDown DragMode.newRange 5 none).stop ≤ 24 + 1) ∧
     (∀ (cx rl hw sph : ℚ),
        0 ≤ posToSlot cx rl hw sph 24 ∧ posToSlot cx rl hw sph 24 ≤ 24)) :=
  ⟨⟨by norm_num, by norm_num, fun s hs => nomatch hs⟩,
    onPointerMove_invariant 24 5 DragMode.newRange none (by norm_num) (by norm_num)
      (fun s hs => nomatch hs)⟩

/-- C8 counterexample: a pointer down in new-range mode at slot 5 (followed
by the immediate pointer-move the source performs) stores the selection
start = stop = 5, violating the claimed strict inequality start < end; a
pointer up then persists it unchanged. -/
theorem pointerDown_zero_width_counterexample :
    (pointerDown DragMode.newRange 5 none).start = 5 ∧
    (pointerDown DragMode.newRange 5 none).stop = 5 ∧ ¬((5 : ℤ) < 5) := by
  refine ⟨?_, ?_, by norm_num⟩ <;> rfl

/-- C9: starting from any block list with 1..5 entries, addBlock succeeds and
keeps the length within 1..5, is a no-op exactly at 5 blocks, appends a clone
of the last block (same civil date and selection, fresh id) when below the
cap, and deleteBlock (which recreates a default block when the last one is
removed) also keeps the length within 1..5. -/
theorem blocks_card_invariant (bs : List Block) (fresh : ℕ) (dflt : Block) (i : ℕ)
    (h1 : 1 ≤ bs.length) (h5 : bs.length ≤ 5) :
    (∃ bs2, addBlock fresh bs = some bs2 ∧ 1 ≤ bs2.length ∧ bs2.length ≤ 5) ∧
    (bs.length = 5 → addBlock fresh bs = some bs) ∧
    (bs.length < 5 → ∀ prev, bs.getLast? = some prev →
      addBlock fresh bs = some (bs ++ [⟨fresh, prev.date, prev.selection⟩])) ∧
    1 ≤ (deleteBlock dflt i bs).length ∧ (deleteBlock dflt i bs).length ≤ 5 := by
  have hne : bs ≠ [] := by
    intro h
    rw [h] at h1
    simp at h1
  have hdel : 1 ≤ (deleteBlock dflt i bs).length ∧ (deleteBlock dflt i bs).length ≤ 5 := by
    unfold deleteBlock ensureAtLeastOneBlock
    split_ifs with hemp
    · simp
    · have hle := List.length_filter_le (fun b => b.id != i) bs
      have hpos : (bs.filter (fun b => b.id != i)).length ≠ 0 := by
        intro hz
        rw [List.length_eq_zero] at hz
        rw [← List.isEmpty_iff] at hz
        exact hemp hz
      omega
  by_cases hlen5 : 5 ≤ bs.length
  · have haddeq : addBlock fresh bs = some bs := by
      unfold addBlock
      rw [if_pos hlen5]
    exact ⟨⟨bs, haddeq, h1, h5⟩, fun _ => haddeq, fun hlt => absurd hlt (by omega), hdel⟩
  · obtain ⟨prev, hprev⟩ := Option.isSome_iff_exists.mp (List.getLast?_isSome.mpr hne)
    have haddeq : addBlock fresh bs = some (bs ++ [⟨fresh, prev.date, prev.selection⟩]) := by
      unfold addBlock
      rw [if_neg hlen5, hprev]
    refine ⟨⟨bs ++ [⟨fresh, prev.date, prev.selection⟩], haddeq, by simp, by
      simp only [List.length_append, List.length_cons, List.length_nil]
      omega⟩, fun h => absurd h (by omega), ?_, hdel⟩
    intro _ prev2 hprev2
    rw [hprev2] at hprev
    injection hprev with hp2
    rw [hp2]
    exact haddeq

/-- C9 witness: the invariant on a one-block list. -/
theorem blocks_card_invariant_witness :
    (1 ≤ ([⟨0, ⟨2025, 1, 1⟩, none⟩] : List Block).length ∧
      ([⟨0, ⟨2025, 1, 1⟩, none⟩] : List Block).length ≤ 5) ∧
    ((∃ bs2, addBlock 1 [⟨0, ⟨2025, 1, 1⟩, none⟩] = some bs2 ∧
        1 ≤ bs2.length ∧ bs2.length ≤ 5) ∧
     (([⟨0, ⟨2025, 1, 1⟩, none⟩] : List Block).length = 5 →
        addBlock 1 [⟨0, ⟨2025, 1, 1⟩, none⟩] = some [⟨0, ⟨2025, 1, 1⟩, none⟩]) ∧
     (([⟨0, ⟨2025, 1, 1⟩, none⟩] : List Block).length < 5 →
        ∀ prev, ([⟨0, ⟨2025, 1, 1⟩, none⟩] : List Block).getLast? = some prev →
          addBlock 1 [⟨0, ⟨2025, 1, 1⟩, none⟩] =
            some ([⟨0, ⟨2025, 1, 1⟩, none⟩] ++ [⟨1, prev.date, prev.selection⟩])) ∧
     1 ≤ (deleteBlock ⟨9, ⟨2025, 1, 2⟩, none⟩ 0 [⟨0, ⟨2025, 1, 1⟩, none⟩]).length ∧
     (deleteBlock ⟨9, ⟨2025, 1, 2⟩, none⟩ 0 [⟨0, ⟨2025, 1, 1⟩, none⟩]).length ≤ 5) :=
  ⟨⟨by decide, by decide⟩,
    blocks_card_invariant [⟨0, ⟨2025, 1, 1⟩, none⟩] 1 ⟨9, ⟨2025, 1, 2⟩, none⟩ 0
      (by decide) (by decide)⟩

/-- C10: addCity with an id already tracked returns the state unchanged (no
city, block, or persisted mutation), and addCity preserves distinctness of
tracked-city ids, so the list never acquires duplicate ids. -/
theorem addCity_idempotent (dflt : Block) (st : AppState) (city : City) :
    (city.id ∈ st.cities.map City.id → addCity dflt st city = st) ∧
    ((st.cities.map City.id).Nodup → ((addCity dflt st city).cities.map City.id).Nodup) := by
  constructor
  · intro hin
    unfold addCity
    rw [if_pos]
    rw [List.any_eq_true]
    obtain ⟨c, hc, hcid⟩ := List.mem_map.mp hin
    exact ⟨c, hc, beq_iff_eq.mpr hcid⟩
  · intro hnd
    unfold addCity
    by_cases hany : st.cities.any (fun c => c.id == city.id) = true
    · rw [if_pos hany]
      exact hnd
    · rw [if_neg hany]
      dsimp only
      rw [List.map_append, List.nodup_append]
      refine ⟨hnd, by simp, ?_⟩
      intro a ha hb
      simp only [List.map_cons, List.map_nil, List.mem_singleton] at hb
      subst hb
      apply hany
      rw [List.any_eq_true]
      obtain ⟨c, hc, hcid⟩ := List.mem_map.mp ha
      exact ⟨c, hc, beq_iff_eq.mpr hcid⟩

/-- C10 witness: adding a city whose id 1 is already tracked. -/
theorem addCity_idempotent_witness :
    ((1 : ℕ) ∈ ([⟨1, 0, false⟩] : List City).map City.id →
      addCity ⟨0, ⟨2025, 1, 1⟩, none⟩ ⟨[⟨1, 0, false⟩], []⟩ ⟨1, 7, false⟩ =
        ⟨[⟨1, 0, false⟩], []⟩) ∧
    ((([⟨1, 0, false⟩] : List City).map City.id).Nodup →
      (((addCity ⟨0, ⟨2025, 1, 1⟩, none⟩ ⟨[⟨1, 0, false⟩], []⟩ ⟨1, 7, false⟩).cities).map
        City.id).Nodup) :=
  addCity_idempotent ⟨0, ⟨2025, 1, 1⟩, none⟩ ⟨[⟨1, 0, false⟩], []⟩ ⟨1, 7, false⟩


end WorldTime
